import Mathlib

/-!
# Verification of the Math-Professor-Agent RAG pipeline core

Shallow embedding of the document-retrieval core implemented in
`math-routing-agent/src/constants.tsx`:

* `EmbeddingService.generateEmbedding` / `EmbeddingService.cosineSimilarity`
* `VectorStore.storeChunks` / `VectorStore.clearChunks` / `VectorStore.getChunkCount`
* `RAGService.processDocument` / `RAGService.retrieveChunks`

JavaScript floating-point numbers are modelled as real numbers (`ℝ`); the
browser `localStorage`-backed chunk store is modelled as an explicit
`List StoredChunk` threaded through the operations; `async`/`Promise` wrappers
are dropped (every awaited callee in the modelled code is itself pure); a
thrown JavaScript exception is modelled as `Except.error`.
-/

namespace RAG

/-- Model of `ChunkMetadata` from `constants.tsx` (the open `[key: string]: any`
extension is never read by the modelled code and is omitted). -/
structure ChunkMetadata where
  has_math : Option Bool
  unit_index : Option Nat
  sub_index : Option Nat
  deriving Repr, DecidableEq

/-- Model of the `Chunk` interface from `constants.tsx`. -/
structure Chunk where
  chunk_id : String
  text : String
  token_length : Nat
  start_char : Nat
  end_char : Nat
  metadata : ChunkMetadata
  deriving Repr, DecidableEq

/-- Model of `StoredChunk extends Chunk` from `constants.tsx`: the three extra fields
are optional in TypeScript, hence `Option`. The embedding is a vector of
JavaScript numbers, modelled as `List ℝ`. -/
structure StoredChunk extends Chunk where
  embedding : Option (List ℝ)
  documentName : Option String
  uploadedAt : Option Nat

/-- Model of `ChunkingResponse` from `constants.tsx`: the shape of the chunking API's
answer as consumed by `RAGService.processDocument`. -/
structure ChunkingResponse where
  success : Bool
  chunks : Option (List Chunk)
  total_chunks : Option Nat
  document_id : Option String
  error : Option String

/-- Model of `RAGResult` from `constants.tsx`: the record returned by
`RAGService.retrieveChunks`. -/
structure RAGResult where
  chunks : List StoredChunk
  context : String
  totalChunks : Nat

/-! ## `text.toLowerCase().split(/\s+/)`

JavaScript's `String.prototype.split` with the regex `/\s+/` splits at every
maximal run of whitespace; a run at the very start (resp. end) of the string
contributes a leading (resp. trailing) empty token, and the empty string
splits to `[""]`.  We model it on `List Char` with explicit fuel so that the
function reduces definitionally (the fuel `l.length + 1` is always enough:
every step consumes at least one character). -/

/-- One splitting step: `acc` is the current (reversed) token.  On a
whitespace character the token is emitted and the rest of the whitespace run
is skipped. -/
def splitWSFuel : Nat → List Char → List Char → List (List Char)
  | 0, _, acc => [acc.reverse]
  | _ + 1, [], acc => [acc.reverse]
  | fuel + 1, c :: cs, acc =>
    if c.isWhitespace then
      acc.reverse :: splitWSFuel fuel (cs.dropWhile Char.isWhitespace) []
    else
      splitWSFuel fuel cs (c :: acc)

/-- Model of `str.split(/\s+/)` on a list of characters. -/
def splitWS (l : List Char) : List (List Char) :=
  splitWSFuel (l.length + 1) l []

/-- The lowercased whitespace-separated words of a text:
`text.toLowerCase().split(/\s+/)` from `EmbeddingService.generateEmbedding`. -/
def words (text : String) : List String :=
  (splitWS (text.data.map Char.toLower)).map fun cs => String.mk cs

/-- Key insertion for the `wordFreq` record: a JavaScript object keeps one
entry per key, in first-insertion order. -/
def insertKey (w : String) (ks : List String) : List String :=
  if w ∈ ks then ks else ks ++ [w]

/-- The keys of the `wordFreq` record built by `generateEmbedding`, in
insertion order (first occurrence of each distinct word). -/
def freqKeys (ws : List String) : List String :=
  ws.foldl (fun ks w => insertKey w ks) []

/-- Model of `Object.values(wordFreq)`: the frequency of each distinct word, in key
order. -/
def wordFreqValues (text : String) : List Nat :=
  (freqKeys (words text)).map fun k => (words text).count k

/-- The number of distinct whitespace-separated lowercased words of a text
(the spec's notion, via `List.dedup`). -/
def distinctWordCount (text : String) : Nat :=
  ((words text).dedup).length

/-- The local `vector` of `generateEmbedding`: the word frequencies as
JavaScript numbers. -/
noncomputable def rawVector (text : String) : List ℝ :=
  (wordFreqValues text).map Nat.cast

/-- The local `magnitude` of `generateEmbedding`:
`Math.sqrt(vector.reduce((sum, val) => sum + val * val, 0))`. -/
noncomputable def rawMagnitude (text : String) : ℝ :=
  Real.sqrt (((rawVector text).map fun v => v * v).sum)

/-- Model of `EmbeddingService.generateEmbedding`: bag-of-words frequency vector,
normalised by its Euclidean magnitude; if the magnitude is not positive the
code returns `new Array(100).fill(0)`. -/
noncomputable def generateEmbedding (text : String) : List ℝ :=
  if 0 < rawMagnitude text then (rawVector text).map fun v => v / rawMagnitude text
  else List.replicate 100 0

/-- Euclidean magnitude of a vector, as computed inside
`EmbeddingService.cosineSimilarity` (`Math.sqrt` of the sum of squares of the
entries read by the loop). -/
noncomputable def vecMagnitude (v : List ℝ) : ℝ :=
  Real.sqrt (∑ i ∈ Finset.range v.length, v.getD i 0 * v.getD i 0)

/-- Model of `EmbeddingService.cosineSimilarity`: `0` on length mismatch, otherwise
`dot / (√mag1 * √mag2)` guarded by `magnitude > 0 ? _ : 0`.  The loop runs
`i` over `0 .. vec1.length - 1`, reading both vectors at `i`. -/
noncomputable def cosineSimilarity (vec1 vec2 : List ℝ) : ℝ :=
  if vec1.length ≠ vec2.length then 0
  else
    let dotProduct := ∑ i ∈ Finset.range vec1.length, vec1.getD i 0 * vec2.getD i 0
    let mag1 := ∑ i ∈ Finset.range vec1.length, vec1.getD i 0 * vec1.getD i 0
    let mag2 := ∑ i ∈ Finset.range vec1.length, vec2.getD i 0 * vec2.getD i 0
    let magnitude := Real.sqrt mag1 * Real.sqrt mag2
    if 0 < magnitude then dotProduct / magnitude else 0

/-! ## `VectorStore`

The `localStorage`-backed store is modelled as the explicit list of stored
chunks (the JSON array under the `math_rag_chunks` key); `Date.now()` is an
explicit `now` argument. -/

/-- The per-chunk tagging done by `VectorStore.storeChunks`
(`{ ...chunk, documentName, uploadedAt: Date.now() }`; the object spread
keeps every other field, including an already-present embedding). -/
def tagChunk (documentName : String) (now : Nat) (c : StoredChunk) : StoredChunk :=
  { c with documentName := some documentName, uploadedAt := some now }

/-- Model of `VectorStore.storeChunks`: appends the tagged chunks to the existing
store (`[...existing, ...storedChunks]`). -/
def storeChunks (chunks : List StoredChunk) (documentName : String) (now : Nat)
    (store : List StoredChunk) : List StoredChunk :=
  store ++ chunks.map (tagChunk documentName now)

/-- Model of `VectorStore.clearChunks`: removes the storage key, so the store read
back afterwards is empty. -/
def clearChunks (_store : List StoredChunk) : List StoredChunk := []

/-- Model of `VectorStore.getChunkCount`. -/
def getChunkCount (store : List StoredChunk) : Nat := store.length

/-! ## `RAGService` -/

/-- The similarity score `RAGService.retrieveChunks` computes for one stored
chunk: `chunk.embedding ? cosineSimilarity(queryEmbedding, chunk.embedding) : 0`. -/
noncomputable def chunkScore (queryEmbedding : List ℝ) (c : StoredChunk) : ℝ :=
  match c.embedding with
  | some e => cosineSimilarity queryEmbedding e
  | none => 0

/-- The ranking step of `RAGService.retrieveChunks`:
`.sort((a, b) => b.similarity - a.similarity)`.  `Array.prototype.sort` is
stable (ES2019) and the comparator orders by descending similarity, so the
result is the unique stable descending reordering, modelled by insertion
sort with the relation "my score is at least yours". -/
noncomputable def rankedChunks (queryEmbedding : List ℝ) (store : List StoredChunk) :
    List StoredChunk :=
  List.insertionSort (fun a b => chunkScore queryEmbedding b ≤ chunkScore queryEmbedding a) store

/-- The context lines
`topChunks.map((chunk, index) => "[Chunk " + (index+1) + "]\n" + chunk.text)`,
with `start` the index of the first listed chunk. -/
def contextLines (start : Nat) : List StoredChunk → List String
  | [] => []
  | c :: cs => ("[Chunk " ++ toString (start + 1) ++ "]\n" ++ c.text) :: contextLines (start + 1) cs

/-- Model of `RAGService.retrieveChunks` (default `topK = 3`): empty store short
circuits to the empty result; otherwise rank all stored chunks against the
query embedding, take the first `topK`, and assemble the labelled context
joined by blank lines.  `totalChunks` is the store's length.  The
`try`/`catch` wrapper returns the empty result on an internal error; the
modelled body is total, so the `catch` branch is unreachable here. -/
noncomputable def retrieveChunks (query : String) (topK : Nat)
    (store : List StoredChunk) : RAGResult :=
  if store.isEmpty then
    { chunks := [], context := "", totalChunks := 0 }
  else
    let queryEmbedding := generateEmbedding query
    let topChunks := (rankedChunks queryEmbedding store).take topK
    { chunks := topChunks
      context := String.intercalate "\n\n" (contextLines 0 topChunks)
      totalChunks := store.length }

/-- The `{ chunks, stored }` record returned by `RAGService.processDocument`. -/
structure ProcessResult where
  chunks : List StoredChunk
  stored : Bool

/-- The error message thrown by `RAGService.processDocument` on a failed
chunking response: `chunkingResponse.error || 'Failed to chunk document'`
(JavaScript `||`, so an empty string also falls back). -/
def processFailureMessage (resp : ChunkingResponse) : String :=
  match resp.error with
  | some e => if e = "" then "Failed to chunk document" else e
  | none => "Failed to chunk document"

/-- Model of `RAGService.processDocument`, from the chunking response onwards (the
response is what `await chunkDocument(...)` produced; `chunkDocument` itself
never throws — it catches and returns `{ success: false, error }`).  If the
response is unsuccessful or carries no chunk array, the code throws, and the
`catch` block logs and rethrows (`throw error`), so the failure propagates
to the caller: modelled as `Except.error`.  Otherwise every chunk gets an
embedding of its text, the tagged chunks are appended to the store, and
`{ chunks, stored: true }` is returned. -/
noncomputable def processDocument (resp : ChunkingResponse) (documentName : String)
    (now : Nat) (store : List StoredChunk) :
    Except String (ProcessResult × List StoredChunk) :=
  match resp.success, resp.chunks with
  | true, some chunks =>
    let chunksWithEmbeddings : List StoredChunk := chunks.map fun c =>
      { toChunk := c
        embedding := some (generateEmbedding c.text)
        documentName := some documentName
        uploadedAt := some now }
    Except.ok ({ chunks := chunksWithEmbeddings, stored := true },
      storeChunks chunksWithEmbeddings documentName now store)
  | true, none => Except.error (processFailureMessage resp)
  | false, _ => Except.error (processFailureMessage resp)

/-! ## Lemmas about words and the embedding -/

theorem splitWSFuel_ne_nil (fuel : Nat) :
    ∀ (l acc : List Char), splitWSFuel fuel l acc ≠ [] := by
  induction fuel with
  | zero => intro l acc; simp [splitWSFuel]
  | succ n ih =>
    intro l acc
    cases l with
    | nil => simp [splitWSFuel]
    | cons c cs =>
      simp only [splitWSFuel]
      split
      · simp
      · exact ih cs (c :: acc)

theorem words_ne_nil (text : String) : words text ≠ [] := by
  simp [words, splitWS, splitWSFuel_ne_nil]

theorem mem_insertKey {x w : String} {ks : List String} :
    x ∈ insertKey w ks ↔ x ∈ ks ∨ x = w := by
  unfold insertKey
  split
  · rename_i h
    constructor
    · exact Or.inl
    · rintro (hx | rfl)
      · exact hx
      · exact h
  · simp

theorem insertKey_nodup {w : String} {ks : List String} (h : ks.Nodup) :
    (insertKey w ks).Nodup := by
  unfold insertKey
  split
  · exact h
  · rename_i hw
    rw [List.nodup_append]
    refine ⟨h, List.nodup_singleton w, ?_⟩
    intro x hx hx1
    rw [List.mem_singleton] at hx1
    subst hx1
    exact hw hx

theorem mem_foldl_insertKey (ws : List String) :
    ∀ (ks : List String) (x : String),
      x ∈ ws.foldl (fun ks w => insertKey w ks) ks ↔ x ∈ ks ∨ x ∈ ws := by
  induction ws with
  | nil => simp
  | cons w ws ih =>
    intro ks x
    simp only [List.foldl_cons, ih, mem_insertKey, List.mem_cons]
    tauto

theorem nodup_foldl_insertKey (ws : List String) :
    ∀ ks : List String, ks.Nodup → (ws.foldl (fun ks w => insertKey w ks) ks).Nodup := by
  induction ws with
  | nil => intro ks h; simpa using h
  | cons w ws ih =>
    intro ks h
    exact ih (insertKey w ks) (insertKey_nodup h)

theorem mem_freqKeys {ws : List String} {x : String} : x ∈ freqKeys ws ↔ x ∈ ws := by
  simp [freqKeys, mem_foldl_insertKey]

theorem freqKeys_nodup (ws : List String) : (freqKeys ws).Nodup :=
  nodup_foldl_insertKey ws [] List.nodup_nil

theorem freqKeys_length (ws : List String) : (freqKeys ws).length = ws.dedup.length := by
  have h : List.Perm (freqKeys ws) ws.dedup :=
    (List.perm_ext_iff_of_nodup (freqKeys_nodup ws) (List.nodup_dedup ws)).mpr
      (fun a => by simp [mem_freqKeys, List.mem_dedup])
  exact h.length_eq

theorem wordFreqValues_length (text : String) :
    (wordFreqValues text).length = distinctWordCount text := by
  simp [wordFreqValues, distinctWordCount, freqKeys_length]

theorem wordFreqValues_ne_nil (text : String) : wordFreqValues text ≠ [] := by
  have hw : words text ≠ [] := words_ne_nil text
  obtain ⟨w, ws, hW⟩ : ∃ w ws, words text = w :: ws := by
    cases h : words text with
    | nil => exact absurd h hw
    | cons w ws => exact ⟨w, ws, rfl⟩
  have : w ∈ freqKeys (words text) := mem_freqKeys.mpr (hW ▸ List.mem_cons_self w ws)
  intro hcontra
  rw [wordFreqValues] at hcontra
  rcases List.map_eq_nil_iff.mp hcontra with hk
  rw [hk] at this
  exact List.not_mem_nil w this

theorem wordFreqValues_pos (text : String) : ∀ n ∈ wordFreqValues text, 0 < n := by
  intro n hn
  rw [wordFreqValues] at hn
  obtain ⟨k, hk, rfl⟩ := List.mem_map.mp hn
  exact List.count_pos_iff.mpr (mem_freqKeys.mp hk)

theorem rawMagnitude_pos (text : String) : 0 < rawMagnitude text := by
  apply Real.sqrt_pos.mpr
  apply List.sum_pos
  · intro x hx
    obtain ⟨v, hv, rfl⟩ := List.mem_map.mp hx
    rw [rawVector] at hv
    obtain ⟨n, hn, rfl⟩ := List.mem_map.mp hv
    have hpos : (0 : ℝ) < (n : ℝ) := by
      exact_mod_cast wordFreqValues_pos text n hn
    exact mul_pos hpos hpos
  · intro h
    have h2 := List.map_eq_nil_iff.mp h
    rw [rawVector] at h2
    exact wordFreqValues_ne_nil text (List.map_eq_nil_iff.mp h2)

theorem generateEmbedding_eq (text : String) :
    generateEmbedding text = (rawVector text).map fun v => v / rawMagnitude text := by
  rw [generateEmbedding, if_pos (rawMagnitude_pos text)]

theorem generateEmbedding_length (text : String) :
    (generateEmbedding text).length = distinctWordCount text := by
  rw [generateEmbedding_eq]
  simp [rawVector, wordFreqValues_length]

/-! ## Lemmas about `cosineSimilarity` -/

theorem cosineSimilarity_of_length_ne {v1 v2 : List ℝ} (h : v1.length ≠ v2.length) :
    cosineSimilarity v1 v2 = 0 := by
  rw [cosineSimilarity, if_pos h]

theorem cosineSimilarity_of_length_eq {v1 v2 : List ℝ} (h : v1.length = v2.length) :
    cosineSimilarity v1 v2 =
      if 0 < Real.sqrt (∑ i ∈ Finset.range v1.length, v1.getD i 0 * v1.getD i 0) *
            Real.sqrt (∑ i ∈ Finset.range v1.length, v2.getD i 0 * v2.getD i 0) then
        (∑ i ∈ Finset.range v1.length, v1.getD i 0 * v2.getD i 0) /
          (Real.sqrt (∑ i ∈ Finset.range v1.length, v1.getD i 0 * v1.getD i 0) *
            Real.sqrt (∑ i ∈ Finset.range v1.length, v2.getD i 0 * v2.getD i 0))
      else 0 := by
  rw [cosineSimilarity, if_neg (by simp [h])]

theorem chunkScore_none {qe : List ℝ} {c : StoredChunk} (h : c.embedding = none) :
    chunkScore qe c = 0 := by
  simp [chunkScore, h]

theorem chunkScore_some {qe e : List ℝ} {c : StoredChunk} (h : c.embedding = some e) :
    chunkScore qe c = cosineSimilarity qe e := by
  simp [chunkScore, h]

/-! ## Stability of the ranking sort

`Array.prototype.sort` with the comparator `(a, b) => b.similarity - a.similarity`
is a stable descending sort, modelled by `List.insertionSort` with the
relation `key y ≤ key x`.  The characteristic property of stability: for
every score value `s`, the subsequence of elements scoring `s` is unchanged
by the sort. -/

section Sorting

variable {α β : Type*} [LinearOrder β]

theorem filter_orderedInsert (key : α → β) (s : β) (a : α) :
    ∀ m : List α,
      (List.orderedInsert (fun x y => key y ≤ key x) a m).filter
          (fun c => decide (key c = s))
        = if key a = s
          then a :: m.filter (fun c => decide (key c = s))
          else m.filter (fun c => decide (key c = s)) := by
  intro m
  induction m with
  | nil =>
    simp only [List.orderedInsert, List.filter]
    by_cases ha : key a = s
    · rw [if_pos ha]; simp [ha]
    · rw [if_neg ha]; simp [ha]
  | cons b bs ih =>
    rw [List.orderedInsert]
    by_cases hr : key b ≤ key a
    · rw [if_pos hr]
      by_cases ha : key a = s
      · rw [if_pos ha]
        simp [List.filter_cons, ha]
      · rw [if_neg ha]
        simp [List.filter_cons, ha]
    · rw [if_neg hr]
      by_cases ha : key a = s
      · have hb : ¬(key b = s) := fun hbs => hr (le_of_eq (by rw [hbs, ha]))
        rw [if_pos ha]
        simp [List.filter_cons, hb, ih, ha]
      · rw [if_neg ha]
        simp [List.filter_cons, ih, ha]

theorem filter_insertionSort (key : α → β) (s : β) (l : List α) :
    (List.insertionSort (fun x y => key y ≤ key x) l).filter
        (fun c => decide (key c = s))
      = l.filter (fun c => decide (key c = s)) := by
  induction l with
  | nil => rfl
  | cons a l ih =>
    rw [List.insertionSort, filter_orderedInsert, ih]
    by_cases ha : key a = s
    · rw [if_pos ha]; simp [List.filter_cons, ha]
    · rw [if_neg ha]; simp [List.filter_cons, ha]

theorem pairwise_of_forall_mem {r : α → α → Prop} :
    ∀ {l : List α}, (∀ a ∈ l, ∀ b ∈ l, r a b) → l.Pairwise r
  | [], _ => List.Pairwise.nil
  | a :: l, h =>
    List.Pairwise.cons (fun b hb => h a (List.mem_cons_self a l) b (List.mem_cons_of_mem a hb))
      (pairwise_of_forall_mem fun x hx y hy =>
        h x (List.mem_cons_of_mem a hx) y (List.mem_cons_of_mem a hy))

theorem insertionSort_of_forall_le (key : α → β) (l : List α)
    (h : ∀ a ∈ l, ∀ b ∈ l, key b ≤ key a) :
    List.insertionSort (fun x y => key y ≤ key x) l = l :=
  List.Sorted.insertionSort_eq (pairwise_of_forall_mem h)

end Sorting

/-! ## Lemmas about `contextLines` and `retrieveChunks` -/

theorem contextLines_getD (dflt : StoredChunk) :
    ∀ (l : List StoredChunk) (start j : Nat), j < l.length →
      (contextLines start l).getD j ""
        = "[Chunk " ++ toString (start + j + 1) ++ "]\n" ++ (l.getD j dflt).text := by
  intro l
  induction l with
  | nil => intro start j h; simp at h
  | cons c cs ih =>
    intro start j h
    cases j with
    | zero => simp [contextLines]
    | succ j =>
      simp only [contextLines, List.getD_cons_succ]
      rw [ih (start + 1) j (by simpa using h)]
      have harith : start + 1 + j = start + (j + 1) := by omega
      rw [harith]

theorem retrieveChunks_of_ne_nil {query : String} {topK : Nat}
    {store : List StoredChunk} (h : store ≠ []) :
    retrieveChunks query topK store =
      { chunks := (rankedChunks (generateEmbedding query) store).take topK
        context := String.intercalate "\n\n"
          (contextLines 0 ((rankedChunks (generateEmbedding query) store).take topK))
        totalChunks := store.length } := by
  rw [retrieveChunks, if_neg (by simp [h])]

/-! ## Concrete fixtures -/

/-- A stored chunk with no embedding (as stored data can lack one). -/
def noEmbChunkA : StoredChunk :=
  { chunk_id := "doc1_chunk_0", text := "alpha beta", token_length := 2,
    start_char := 0, end_char := 10,
    metadata := { has_math := some false, unit_index := some 0, sub_index := none },
    embedding := none, documentName := some "doc1", uploadedAt := some 0 }

/-- A second stored chunk with no embedding. -/
def noEmbChunkB : StoredChunk :=
  { chunk_id := "doc1_chunk_1", text := "gamma delta", token_length := 2,
    start_char := 10, end_char := 21,
    metadata := { has_math := some false, unit_index := some 1, sub_index := none },
    embedding := none, documentName := some "doc1", uploadedAt := some 0 }

/-- A stored chunk whose embedding is the embedding of its own text, as
`processDocument` produces. -/
noncomputable def embChunkAB : StoredChunk :=
  { chunk_id := "doc2_chunk_0", text := "a b", token_length := 2,
    start_char := 0, end_char := 3,
    metadata := { has_math := some false, unit_index := some 0, sub_index := none },
    embedding := some (generateEmbedding "a b"), documentName := some "doc2",
    uploadedAt := some 0 }

/-- Default chunk used with `List.getD`. -/
def defaultStoredChunk : StoredChunk :=
  { chunk_id := "", text := "", token_length := 0, start_char := 0, end_char := 0,
    metadata := { has_math := none, unit_index := none, sub_index := none },
    embedding := none, documentName := none, uploadedAt := none }

theorem fixtureScores (qe : List ℝ) :
    ∀ x ∈ [noEmbChunkA, noEmbChunkB], chunkScore qe x = 0 := by
  intro x hx
  rcases List.mem_cons.mp hx with rfl | hx2
  · exact chunkScore_none rfl
  rcases List.mem_singleton.mp hx2 with rfl
  exact chunkScore_none rfl

theorem rankedChunks_fixture (qe : List ℝ) :
    rankedChunks qe [noEmbChunkA, noEmbChunkB] = [noEmbChunkA, noEmbChunkB] := by
  rw [rankedChunks]
  exact insertionSort_of_forall_le (fun c => chunkScore qe c) _ (by
    intro a ha b hb
    simp only [fixtureScores qe a ha, fixtureScores qe b hb, le_refl])

theorem retrieveChunks_chunks_of_ne_nil {query : String} {topK : Nat}
    {store : List StoredChunk} (h : store ≠ []) :
    (retrieveChunks query topK store).chunks
      = (rankedChunks (generateEmbedding query) store).take topK := by
  rw [retrieveChunks_of_ne_nil h]

/-! ## Claim theorems -/

/-- C1 (counterexample): `EmbeddingService.generateEmbedding` does not
produce vectors of one fixed dimensionality: the texts `"a"` and `"a b"` get
vectors of lengths 1 and 2 respectively. -/
theorem generateEmbedding_not_fixed_dim :
    ¬ ∀ t1 t2 : String, (generateEmbedding t1).length = (generateEmbedding t2).length := by
  intro h
  have h1 := h "a" "a b"
  rw [generateEmbedding_length, generateEmbedding_length] at h1
  revert h1
  decide

/-- C1 (amended): `generateEmbedding` is deterministic for the same text (it
is a pure function of its input), but its output dimensionality is not
fixed: the vector's length equals the number of distinct
whitespace-separated words of the lowercased text, which varies from text
to text (the 100-dimensional zero-vector fallback is unreachable because
the word list is never empty). -/
theorem generateEmbedding_dim_eq_distinctWordCount (text : String) :
    (generateEmbedding text).length = distinctWordCount text :=
  generateEmbedding_length text

/-- C2: whenever the number of distinct whitespace-separated lowercased
words of the query differs from that of a stored chunk's text (the chunk's
embedding being the embedding of its own text, as `processDocument` stores
it), the similarity score `RAGService.retrieveChunks` computes for that
chunk is exactly 0, and over a store made of such chunks the ranking
degenerates to store insertion order. -/
theorem chunkScore_zero_of_distinctWordCount_ne (query : String) (topK : Nat)
    (store : List StoredChunk)
    (hemb : ∀ c ∈ store, c.embedding = some (generateEmbedding c.text))
    (hcnt : ∀ c ∈ store, distinctWordCount c.text ≠ distinctWordCount query) :
    (∀ c ∈ store, chunkScore (generateEmbedding query) c = 0) ∧
    (retrieveChunks query topK store).chunks = store.take topK := by
  have hzero : ∀ c ∈ store, chunkScore (generateEmbedding query) c = 0 := by
    intro c hc
    rw [chunkScore_some (hemb c hc)]
    apply cosineSimilarity_of_length_ne
    rw [generateEmbedding_length, generateEmbedding_length]
    exact fun he => hcnt c hc he.symm
  refine ⟨hzero, ?_⟩
  by_cases hs : store = []
  · subst hs; simp [retrieveChunks]
  · rw [retrieveChunks_chunks_of_ne_nil hs, rankedChunks,
      insertionSort_of_forall_le (fun c => chunkScore (generateEmbedding query) c) store
        (fun a ha b hb => by simp only [hzero a ha, hzero b hb, le_refl])]

/-- C2 (witness): the query `"a"` has 1 distinct word, the chunk text
`"a b"` has 2, so the chunk scores 0 and the one-chunk store is returned in
insertion order. -/
theorem chunkScore_zero_of_distinctWordCount_ne_witness :
    chunkScore (generateEmbedding "a") embChunkAB = 0 ∧
    (retrieveChunks "a" 3 [embChunkAB]).chunks = [embChunkAB].take 3 := by
  have h := chunkScore_zero_of_distinctWordCount_ne "a" 3 [embChunkAB]
    (by intro c hc; rcases List.mem_singleton.mp hc with rfl; rfl)
    (by intro c hc; rcases List.mem_singleton.mp hc with rfl; decide)
  exact ⟨h.1 embChunkAB (List.mem_singleton_self _), h.2⟩

/-- C3 (counterexample): on a failed chunking response
`RAGService.processDocument` does not return a well-formed result to its
caller: the `catch` block rethrows, so the failure propagates (modelled as
`Except.error`). -/
theorem processDocument_error_on_failure :
    processDocument { success := false, chunks := none, total_chunks := none,
                      document_id := none, error := none } "doc.pdf" 0 []
      = Except.error "Failed to chunk document" := rfl

/-- C3 (amended): `RAGService.retrieveChunks` returns a well-formed
(possibly empty) result on every input (see the empty-store theorem), but
`RAGService.processDocument` propagates the chunking failure: whenever the
chunking response is unsuccessful or carries no chunk array, the call
returns the thrown error, not a result. -/
theorem processDocument_propagates_failure (resp : ChunkingResponse)
    (documentName : String) (now : Nat) (store : List StoredChunk)
    (h : resp.success = false ∨ resp.chunks = none) :
    processDocument resp documentName now store
      = Except.error (processFailureMessage resp) := by
  rcases resp with ⟨success, chunks, tc, di, err⟩
  cases success <;> cases chunks <;> simp_all [processDocument]

/-- C3 (witness): a concrete failing response propagates its error text. -/
theorem processDocument_propagates_failure_witness :
    processDocument { success := false, chunks := none, total_chunks := none,
                      document_id := none, error := some "HTTP error" } "doc.pdf" 7 []
      = Except.error "HTTP error" := by
  rw [processDocument_propagates_failure _ _ _ _ (Or.inl rfl)]
  rfl

/-- C4: `EmbeddingService.cosineSimilarity` returns 0 on length mismatch and
when either vector has zero magnitude, otherwise the cosine similarity; the
result always lies in `[-1, 1]` and the function is total (never raises). -/
theorem cosineSimilarity_contract (v1 v2 : List ℝ) :
    (v1.length ≠ v2.length → cosineSimilarity v1 v2 = 0) ∧
    (vecMagnitude v1 = 0 ∨ vecMagnitude v2 = 0 → cosineSimilarity v1 v2 = 0) ∧
    -1 ≤ cosineSimilarity v1 v2 ∧ cosineSimilarity v1 v2 ≤ 1 := by
  by_cases h : v1.length = v2.length
  case neg =>
    rw [cosineSimilarity_of_length_ne h]
    exact ⟨fun _ => rfl, fun _ => rfl, by norm_num, by norm_num⟩
  case pos =>
    rw [cosineSimilarity_of_length_eq h]
    set S1 := ∑ i ∈ Finset.range v1.length, v1.getD i 0 * v1.getD i 0 with hS1
    set S2 := ∑ i ∈ Finset.range v1.length, v2.getD i 0 * v2.getD i 0 with hS2
    set D := ∑ i ∈ Finset.range v1.length, v1.getD i 0 * v2.getD i 0 with hD
    have hm1 : vecMagnitude v1 = Real.sqrt S1 := by rw [vecMagnitude]
    have hm2 : vecMagnitude v2 = Real.sqrt S2 := by rw [vecMagnitude, ← h]
    by_cases hmag : 0 < Real.sqrt S1 * Real.sqrt S2
    case neg =>
      rw [if_neg hmag]
      exact ⟨fun hne => absurd h hne, fun _ => rfl, by norm_num, by norm_num⟩
    case pos =>
      rw [if_pos hmag]
      have hS1nonneg : 0 ≤ S1 :=
        Finset.sum_nonneg fun i _ => mul_self_nonneg _
      have hCS : D ^ 2 ≤ S1 * S2 := by
        have := Finset.sum_mul_sq_le_sq_mul_sq (Finset.range v1.length)
          (fun i => v1.getD i 0) (fun i => v2.getD i 0)
        simpa only [hS1, hS2, hD, pow_two] using this
      have habs : |D| ≤ Real.sqrt S1 * Real.sqrt S2 := by
        calc |D| = Real.sqrt (D ^ 2) := (Real.sqrt_sq_eq_abs D).symm
          _ ≤ Real.sqrt (S1 * S2) := Real.sqrt_le_sqrt hCS
          _ = Real.sqrt S1 * Real.sqrt S2 := Real.sqrt_mul hS1nonneg S2
      have hdiv : |D / (Real.sqrt S1 * Real.sqrt S2)| ≤ 1 := by
        rw [abs_div, abs_of_pos hmag]
        exact (div_le_one hmag).mpr habs
      have hpair := abs_le.mp hdiv
      refine ⟨fun hne => absurd h hne, fun hz => ?_, hpair.1, hpair.2⟩
      exfalso
      rcases hz with hz | hz
      · rw [hm1] at hz
        rw [hz, zero_mul] at hmag
        exact lt_irrefl 0 hmag
      · rw [hm2] at hz
        rw [hz, mul_zero] at hmag
        exact lt_irrefl 0 hmag

/-- C4 (witness): mismatched lengths give 0, and a matched pair stays within
`[-1, 1]`. -/
theorem cosineSimilarity_contract_witness :
    cosineSimilarity [(1 : ℝ)] [1, 0] = 0 ∧
    (-1 ≤ cosineSimilarity [(1 : ℝ)] [1] ∧ cosineSimilarity [(1 : ℝ)] [1] ≤ 1) :=
  ⟨(cosineSimilarity_contract [(1 : ℝ)] [1, 0]).1 (by simp),
   ⟨(cosineSimilarity_contract [(1 : ℝ)] [1]).2.2.1,
    (cosineSimilarity_contract [(1 : ℝ)] [1]).2.2.2⟩⟩

/-- C5: for every query and every `topK`, retrieving from the empty store
returns exactly the empty result `{ chunks := [], context := "", totalChunks := 0 }`,
not an error. -/
theorem retrieveChunks_empty_store (query : String) (topK : Nat) :
    retrieveChunks query topK [] = { chunks := [], context := "", totalChunks := 0 } := rfl

/-- C6: a stored chunk without an embedding is scored 0 rather than being
excluded, so on a non-empty store the returned chunk list always has length
`min topK (number of stored chunks)`. -/
theorem retrieveChunks_result_size (query : String) (topK : Nat)
    (store : List StoredChunk) (hne : store ≠ []) :
    (∀ c : StoredChunk, c.embedding = none → chunkScore (generateEmbedding query) c = 0) ∧
    (retrieveChunks query topK store).chunks.length = min topK store.length := by
  refine ⟨fun c hc => chunkScore_none hc, ?_⟩
  rw [retrieveChunks_chunks_of_ne_nil hne, List.length_take, rankedChunks,
    List.length_insertionSort]

/-- C6 (witness): two embedding-less chunks with `topK = 3` give
`min 3 2` chunks back. -/
theorem retrieveChunks_result_size_witness :
    ([noEmbChunkA, noEmbChunkB] : List StoredChunk) ≠ [] ∧
    (retrieveChunks "query" 3 [noEmbChunkA, noEmbChunkB]).chunks.length = min 3 2 :=
  ⟨by simp, (retrieveChunks_result_size "query" 3 [noEmbChunkA, noEmbChunkB] (by simp)).2⟩

/-- C7: retrieval ranks deterministically and stably: the returned chunk
list is the `topK`-prefix of the ranking, and for every score value `s` the
subsequence of chunks scoring `s` appears in the ranking exactly in store
insertion order (stable sort). -/
theorem retrieveChunks_stable_ranking (query : String) (topK : Nat)
    (store : List StoredChunk) (s : ℝ) :
    (retrieveChunks query topK store).chunks
      = (rankedChunks (generateEmbedding query) store).take topK ∧
    (rankedChunks (generateEmbedding query) store).filter
        (fun c => decide (chunkScore (generateEmbedding query) c = s))
      = store.filter (fun c => decide (chunkScore (generateEmbedding query) c = s)) := by
  constructor
  · by_cases hs : store = []
    · subst hs; simp [retrieveChunks, rankedChunks]
    · exact retrieveChunks_chunks_of_ne_nil hs
  · exact filter_insertionSort (fun c => chunkScore (generateEmbedding query) c) s store

/-- C8: retrieval is monotone in `topK`: every chunk returned with `topK = K`
is also returned with any `topK = K' ≥ K` (same query, same store). -/
theorem retrieveChunks_monotone_topK (query : String) (store : List StoredChunk)
    (K K' : Nat) (hK : K ≤ K') (c : StoredChunk)
    (hc : c ∈ (retrieveChunks query K store).chunks) :
    c ∈ (retrieveChunks query K' store).chunks := by
  by_cases hs : store = []
  · subst hs; simp [retrieveChunks] at hc
  · rw [retrieveChunks_chunks_of_ne_nil hs] at hc ⊢
    have htake : (rankedChunks (generateEmbedding query) store).take K
        = ((rankedChunks (generateEmbedding query) store).take K').take K := by
      rw [List.take_take, Nat.min_eq_left hK]
    rw [htake] at hc
    exact List.take_subset _ _ hc

/-- C8 (witness): with two stored chunks, the single chunk returned at
`topK = 1` is still returned at `topK = 2`. -/
theorem retrieveChunks_monotone_topK_witness :
    1 ≤ 2 ∧ noEmbChunkA ∈ (retrieveChunks "query" 2 [noEmbChunkA, noEmbChunkB]).chunks := by
  refine ⟨by decide, retrieveChunks_monotone_topK "query" [noEmbChunkA, noEmbChunkB]
    1 2 (by decide) noEmbChunkA ?_⟩
  rw [retrieveChunks_chunks_of_ne_nil (by simp), rankedChunks_fixture]
  simp

/-- C9: on a non-empty retrieval result, `context` is the blank-line-joined
concatenation of the returned chunks' texts in ranked order, the `j`-th line
carrying the 1-based label `"[Chunk j+1]\n<text>"`, and `totalChunks` is the
store's total chunk count, not the number of chunks returned. -/
theorem retrieveChunks_context_shape (query : String) (topK : Nat)
    (store : List StoredChunk)
    (h : (retrieveChunks query topK store).chunks ≠ []) :
    (retrieveChunks query topK store).context
      = String.intercalate "\n\n" (contextLines 0 (retrieveChunks query topK store).chunks) ∧
    (∀ j < (retrieveChunks query topK store).chunks.length,
      (contextLines 0 (retrieveChunks query topK store).chunks).getD j ""
        = "[Chunk " ++ toString (j + 1) ++ "]\n"
            ++ ((retrieveChunks query topK store).chunks.getD j defaultStoredChunk).text) ∧
    (retrieveChunks query topK store).totalChunks = store.length := by
  have hs : store ≠ [] := by
    intro hnil
    subst hnil
    exact h (by rfl)
  refine ⟨?_, ?_, ?_⟩
  · rw [retrieveChunks_of_ne_nil hs]
  · intro j hj
    have hj0 := contextLines_getD defaultStoredChunk
      ((retrieveChunks query topK store).chunks) 0 j hj
    simpa using hj0
  · rw [retrieveChunks_of_ne_nil hs]

/-- C9 (witness): a concrete one-chunk retrieval result has the labelled
context and reports the store's total count `2`. -/
theorem retrieveChunks_context_shape_witness :
    (retrieveChunks "query" 1 [noEmbChunkA, noEmbChunkB]).context
      = String.intercalate "\n\n"
          (contextLines 0 (retrieveChunks "query" 1 [noEmbChunkA, noEmbChunkB]).chunks) ∧
    (retrieveChunks "query" 1 [noEmbChunkA, noEmbChunkB]).totalChunks = 2 := by
  have hne : (retrieveChunks "query" 1 [noEmbChunkA, noEmbChunkB]).chunks ≠ [] := by
    rw [retrieveChunks_chunks_of_ne_nil (by simp), rankedChunks_fixture]
    simp
  have h := retrieveChunks_context_shape "query" 1 [noEmbChunkA, noEmbChunkB] hne
  exact ⟨h.1, h.2.2⟩

/-- C10: the chunk store grows only by append and shrinks only by full
clear: after `storeChunks`, the old store is exactly the prefix of the new
one (no chunk removed, reordered, or mutated), the new chunks follow in
emission order with the document tag applied, the length is the sum, and
`clearChunks` empties the store entirely. -/
theorem storeChunks_append_clearChunks (chunks : List StoredChunk)
    (documentName : String) (now : Nat) (store : List StoredChunk) :
    (storeChunks chunks documentName now store).take store.length = store ∧
    (storeChunks chunks documentName now store).drop store.length
      = chunks.map (tagChunk documentName now) ∧
    (storeChunks chunks documentName now store).length
      = store.length + chunks.length ∧
    clearChunks (storeChunks chunks documentName now store) = [] := by
  refine ⟨?_, ?_, ?_, rfl⟩
  · rw [storeChunks]
    exact List.take_left store _
  · rw [storeChunks]
    exact List.drop_left store _
  · rw [storeChunks]
    simp

end RAG
